import Mathlib

/-!
Shallow embedding of the crossword-generator core
(`layout_handler.py`, `word_handler.py`, `state.py`, `tree_search.py`,
`optimizer.py`) and verification of the frozen claims about it.

Words and patterns are `List Char`; a grid cell is `Option Char`
(`none` = block, `some c` = the cell symbol, `'_'` = empty).
-/

namespace Crossword

/-- `MIN_WORD_LENGTH` from `config.py` (`DefaultArguments.MIN_WORD_LENGTH = 3`). -/
def MIN_WORD_LENGTH : Nat := 3

/-- A character in the `A`–`Z` range (what the regex class `[A-Z]` accepts). -/
def isAZ (c : Char) : Bool := 'A' ≤ c && c ≤ 'Z'

/-- `map_func` of `WordHandler.preprocess_words`:
`re.sub("[^A-Z]", "", x.upper())` — uppercase, then drop chars outside `A`–`Z`. -/
def toUpperStripped (s : List Char) : List Char :=
  (s.map Char.toUpper).filter isAZ

/-- Semantics of matching a word against `convert_pattern_for_matching(pattern)`
with `re.fullmatch` (`common.py`): same length, and at each slot either the
pattern fixes the same character or the slot is `'_'` (compiled to `[A-Z]`),
which accepts exactly one uppercase letter. -/
def matchesPattern (pattern word : List Char) : Bool :=
  pattern.length == word.length &&
    (List.zip pattern word).all (fun pw =>
      (pw.1 == '_' && isAZ pw.2) || pw.1 == pw.2)

/-- Lexicographic `≤` on char lists (Python string comparison used by `sorted`). -/
def lexLe : List Char → List Char → Bool
  | [], _ => true
  | _ :: _, [] => false
  | a :: as, b :: bs =>
    if a = b then lexLe as bs else decide (a < b)

/-- Insert into a `lexLe`-sorted list (used to model Python's `sorted`). -/
def insertSorted (w : List Char) : List (List Char) → List (List Char)
  | [] => [w]
  | x :: xs => if lexLe w x then w :: x :: xs else x :: insertSorted w xs

/-- Model of Python's `sorted` on a list of words. -/
def sortWords (ws : List (List Char)) : List (List Char) :=
  ws.foldr insertSorted []

/-- A raw word-list item: `some s` models a Python string item, `none` a
non-string item (dropped by `filter_func`). -/
abbrev RawWord := Option (List Char)

/-- Steps 1–6 of `WordHandler.preprocess_words` (`word_handler.py`):
filter by `isinstance(x, str) and len(x) in self.word_lengths` (note: the
length test is applied to the *raw* string), then map
`re.sub("[^A-Z]", "", x.upper())`, deduplicate (`set`), and sort. -/
def normalize_words (word_lengths : List Nat) (raw : List RawWord) :
    List (List Char) :=
  sortWords ((raw.filterMap (fun x =>
    match x with
    | none => none
    | some s => if s.length ∈ word_lengths then some (toUpperStripped s) else none)).dedup)

/-- Transcription of the claim's reading of the spec (steps 3 then 4 in the
spec's order): the length filter applied to the *stripped* form. Used only to
contrast with `normalize_words`. -/
def normalize_words_spec_order (word_lengths : List Nat) (raw : List RawWord) :
    List (List Char) :=
  sortWords ((raw.filterMap (fun x =>
    match x with
    | none => none
    | some s =>
      if (toUpperStripped s).length ∈ word_lengths then some (toUpperStripped s)
      else none)).dedup)

/-- Explicit RNG state modelling the single `np.random` stream seeded once by
`np.random.seed(random_seed)` (`optimizer.py`); a linear congruential step
stands in for the Mersenne Twister. -/
structure Rng where
  seed : Nat
deriving DecidableEq

/-- One RNG draw. -/
def rngNext (g : Rng) : Nat × Rng :=
  let s := (g.seed * 1103515245 + 12345) % 2147483648
  (s, ⟨s⟩)

/-- Draw a number `< n` (models `np.random.choice(n)`; never called with
`n = 0` on the paths the claims exercise). -/
def rngBelow (g : Rng) (n : Nat) : Nat × Rng :=
  let (x, g') := rngNext g
  (x % n, g')

/-- `np.random.choice(words, size=k, replace=False)`: draw `k` elements
without replacement, result in sample order. -/
def sampleWithoutReplacement (g : Rng) (ws : List (List Char)) :
    Nat → List (List Char) × Rng
  | 0 => ([], g)
  | k + 1 =>
    let (i, g') := rngBelow g ws.length
    match ws[i]? with
    | none => ([], g')
    | some w =>
      let (rest, g'') := sampleWithoutReplacement g' (ws.eraseIdx i) k
      (w :: rest, g'')

/-- `WordHandler.preprocess_words` in full: normalization followed by the
uniform subsample `np.random.choice(words, size=min(len(words), max_num_words),
replace=False)`. -/
def preprocess_words (word_lengths : List Nat) (raw : List RawWord)
    (max_num_words : Nat) (g : Rng) : List (List Char) × Rng :=
  let ws := normalize_words word_lengths raw
  sampleWithoutReplacement g ws (min ws.length max_num_words)

/-- `WordHandler.separate_words_by_length`: for each length, the sorted
sublist of clean words of that length. -/
def separate_words_by_length (clean : List (List Char)) (l : Nat) :
    List (List Char) :=
  sortWords (clean.filter (fun w => w.length == l))

/-!  ### Grid analyzer (`layout_handler.py`)  -/

/-- One cell of a layout: `none` = block (empty CSV cell), `some c` = the
cell's symbol (`'_'` for an empty fillable cell, or a pre-filled letter). -/
abbrev Cell := Option Char

/-- A rectangular layout, row-major. -/
abbrev Layout := List (List Cell)

/-- `Orientation` from `common.py`. -/
inductive Orient where
  | across
  | down
deriving DecidableEq

/-- `get_coordinates` from `layout_handler.py`: `length` consecutive cells in
the chosen direction starting at `(row, col)`. -/
def get_coordinates (row col : Nat) (o : Orient) (length : Nat) :
    List (Nat × Nat) :=
  match o with
  | .across => (List.range length).map (fun k => (row, col + k))
  | .down => (List.range length).map (fun k => (row + k, col))

/-- Cell lookup (`layout.iloc[row, col]`); out-of-range reads as a block. -/
def cellAt (layout : Layout) (row col : Nat) : Cell :=
  (layout.getD row []).getD col none

/-- The run of cell symbols produced by `get_slice` + flatten + split at the
first block separator: the cells from `(row, col)` in direction `o` up to the
next block or the grid edge. -/
def runFrom (layout : Layout) (row col : Nat) (o : Orient) : List Char :=
  match o with
  | .across => ((layout.getD row []).drop col).takeWhile Option.isSome |>.filterMap id
  | .down =>
    ((layout.map (fun r => r.getD col none)).drop row).takeWhile Option.isSome
      |>.filterMap id

/-- The entry candidate in direction `o` at `(row, col)`: its run of cells,
kept only when at least `MIN_WORD_LENGTH` long. -/
def entryForRun (layout : Layout) (row col : Nat) (o : Orient) :
    List (List Char × List (Nat × Nat)) :=
  if (runFrom layout row col o).length < MIN_WORD_LENGTH then []
  else [(runFrom layout row col o,
         get_coordinates row col o (runFrom layout row col o).length)]

/-- The entries (pattern, coordinates) emitted at one cell by
`LayoutHandler.extract_entries_from_layout`: skip blocks; start an `across`
entry if in column 0 or right of a block, then a `down` entry if in row 0 or
below a block; drop candidate runs shorter than `MIN_WORD_LENGTH`. -/
def entriesAtCell (layout : Layout) (row col : Nat) :
    List (List Char × List (Nat × Nat)) :=
  if cellAt layout row col = none then []
  else
    (if col = 0 ∨ cellAt layout row (col - 1) = none then
      entryForRun layout row col .across else [])
      ++ (if row = 0 ∨ cellAt layout (row - 1) col = none then
      entryForRun layout row col .down else [])

/-- `LayoutHandler.extract_entries_from_layout`: row-major scan emitting, at
each cell, its `across` entry then its `down` entry.  The Python builds two
parallel lists (`patterns`, `coordinates`) in lockstep; here each entry is the
pair. -/
def extract_entries_from_layout (layout : Layout) :
    List (List Char × List (Nat × Nat)) :=
  (List.range layout.length).flatMap (fun row =>
    (List.range ((layout.headD []).length)).flatMap (fun col =>
      entriesAtCell layout row col))

/-- `LayoutHandler.get_dependencies`: for each entry `pA` and each of its
cells in order, every `(pB, pB_pos)` with `pB ≠ pA` whose `pB_pos`-th cell is
that same cell.  Cells with no crossing entry contribute nothing. -/
def get_dependencies (coordinates : List (List (Nat × Nat))) :
    List (List (Nat × Nat)) :=
  coordinates.enum.map (fun pA =>
    pA.2.flatMap (fun coord =>
      coordinates.enum.flatMap (fun pB =>
        if pA.1 = pB.1 then []
        else pB.2.enum.filterMap (fun pc =>
          if coord = pc.2 then some (pB.1, pc.1) else none))))

/-!  ### Crossword state (`state.py`)  -/

/-- `Entry` from `state.py`. -/
structure Entry where
  index : Nat
  length : Nat
  coordinates : List (Nat × Nat)
  dependencies : List (Nat × Nat)
  pattern : List Char
  possible_words : List (List Char)
  num_letters_fixed : Nat
  word_fixed : Bool
deriving DecidableEq

/-- Placeholder entry used only for out-of-range `getD` reads in statements. -/
def dummyEntry : Entry :=
  ⟨0, 0, [], [], [], [], 0, false⟩

instance : Inhabited Entry := ⟨dummyEntry⟩

/-- `Entry.num_possible_words`. -/
def Entry.num_possible_words (e : Entry) : Nat := e.possible_words.length

/-- `CrosswordState`: the Python object stores `entries` and fields derived
from it in `__init__`; the derived fields are modelled as functions below. -/
structure CrosswordState where
  entries : List Entry
deriving DecidableEq

/-- `self.empty_entries = [p for p in entries if not p.word_fixed]`. -/
def empty_entries (s : CrosswordState) : List Entry :=
  s.entries.filter (fun p => !p.word_fixed)

/-- `self.filled_entries = [p for p in entries if p.word_fixed]`. -/
def filled_entries (s : CrosswordState) : List Entry :=
  s.entries.filter (fun p => p.word_fixed)

/-- `self.words_already_used = [p.word for p in self.filled_entries]`
(`Entry.word` is `"".join(self.pattern)`, i.e. the pattern itself here). -/
def words_already_used (s : CrosswordState) : List (List Char) :=
  (filled_entries s).map (fun p => p.pattern)

/-- Python's `min(l, key=f)`: the first element attaining the minimum key
(an element replaces the current best only when strictly smaller). -/
def minByNumPossible (b : Entry) : List Entry → Entry
  | [] => b
  | c :: cs =>
    if c.num_possible_words < b.num_possible_words then minByNumPossible c cs
    else minByNumPossible b cs

/-- `CrosswordState.get_next_entry`: `min(empty_entries, key=num_possible_words)`
if there are empty entries, else `None`. -/
def get_next_entry (s : CrosswordState) : Option Entry :=
  match empty_entries s with
  | [] => none
  | x :: xs => some (minByNumPossible x xs)

/-- `CrosswordState.num_options` (`None` when all entries are filled). -/
def num_options (s : CrosswordState) : Option Nat :=
  (get_next_entry s).map Entry.num_possible_words

/-- `CrosswordState.get_possible_actions` (Python reads
`next_entry_to_be_filled.possible_words`; with no next entry it would raise —
modelled as `[]`, a case the claims never reach). -/
def get_possible_actions (s : CrosswordState) : List (List Char) :=
  match get_next_entry s with
  | some e => e.possible_words
  | none => []

/-- The update of one affected (crossing) entry inside
`CrosswordState.take_action`: set slot `affected_entry_position` of its
pattern to `next_new.pattern[current_position]`, refilter `possible_words` by
the new pattern excluding `words_already_used + [action]`, bump
`num_letters_fixed`, and set `word_fixed = False`. -/
def updateAffected (used : List (List Char)) (action : List Char)
    (current_position : Nat) (affected : Entry) (affected_entry_position : Nat) :
    Entry :=
  let pattern := affected.pattern.set affected_entry_position
    (action.getD current_position '_')
  { affected with
    pattern := pattern
    possible_words := affected.possible_words.filter (fun w =>
      matchesPattern pattern w && !(List.elem w (used ++ [action])))
    num_letters_fixed := affected.num_letters_fixed + 1
    word_fixed := false }

/-- One iteration of the dependency loop of `take_action`: look up the
affected entry in the *old* state's entries, skip it if already fixed, else
overwrite position `affected_old.index` of the accumulator with the update.
`dep` is `(current_position, (affected_entry_index, affected_entry_position))`. -/
def takeActionStep (s : CrosswordState) (action : List Char)
    (acc : List Entry) (dep : Nat × (Nat × Nat)) : List Entry :=
  match s.entries[dep.2.1]? with
  | none => acc
  | some affected_old =>
    if affected_old.word_fixed then acc
    else acc.set affected_old.index
      (updateAffected (words_already_used s) action dep.1 affected_old dep.2.2)

/-- The entry `take_action` writes for the entry being filled. -/
def fixEntry (next_old : Entry) (action : List Char) : Entry :=
  { next_old with
    pattern := action
    possible_words := [action]
    num_letters_fixed := next_old.length
    word_fixed := true }

/-- `CrosswordState.take_action`: overwrite the next entry with a fixed copy,
then for each `(affected_entry_index, affected_entry_position)` at position
`current_position` of its `dependencies`, update the affected entry (read from
the *old* state) unless it is already fixed.  With no next entry the Python
would raise; modelled as returning the state unchanged (claims only apply it
to states with a next entry). -/
def take_action (s : CrosswordState) (action : List Char) : CrosswordState :=
  match get_next_entry s with
  | none => s
  | some next_old =>
    ⟨next_old.dependencies.enum.foldl (takeActionStep s action)
      (s.entries.set next_old.index (fixEntry next_old action))⟩

/-- `CrosswordState.is_terminal`: success (no empty entry) or failure (a next
entry with zero possible words). -/
def is_terminal (s : CrosswordState) : Bool :=
  (empty_entries s).isEmpty ||
    (match get_next_entry s with
     | none => false
     | some e => e.num_possible_words == 0)

/-- `CrosswordState.get_reward`: number of filled entries. -/
def get_reward (s : CrosswordState) : Nat :=
  (filled_entries s).length

/-- `get_initial_crossword_state` (`state.py`): one entry per layout entry,
`num_letters_fixed` counted from the pre-filled pattern, `possible_words`
taken from the word index and filtered by the pattern when partially fixed.
`wbl` models `word_handler.words_by_length`. -/
def get_initial_crossword_state (layout : Layout)
    (wbl : Nat → List (List Char)) : CrosswordState :=
  let pcs := extract_entries_from_layout layout
  let deps := get_dependencies (pcs.map Prod.snd)
  ⟨(List.range pcs.length).map (fun i =>
    let pattern := (pcs.getD i ([], [])).1
    let coords := (pcs.getD i ([], [])).2
    let length := coords.length
    let num_letters_fixed := (pattern.filter (fun c => c ≠ '_')).length
    let word_fixed := num_letters_fixed == length
    let possible_words :=
      if word_fixed then [pattern]
      else if 0 < num_letters_fixed then
        (wbl length).filter (fun w => matchesPattern pattern w)
      else wbl length
    { index := i
      length := length
      coordinates := coords
      dependencies := deps.getD i []
      pattern := pattern
      possible_words := possible_words
      num_letters_fixed := num_letters_fixed
      word_fixed := word_fixed })⟩

/-- An action is valid in `s` when the caller contract of `take_action` holds:
there is a next entry and the action is one of its possible words. -/
def ValidAction (s : CrosswordState) (action : List Char) : Prop :=
  match get_next_entry s with
  | some e => action ∈ e.possible_words
  | none => False

instance (s : CrosswordState) (a : List Char) : Decidable (ValidAction s a) := by
  unfold ValidAction
  cases get_next_entry s <;> infer_instance

/-- States reachable from `s0` by sequences of valid `take_action` calls. -/
inductive Reachable (s0 : CrosswordState) : CrosswordState → Prop
  | refl : Reachable s0 s0
  | step {s a} : Reachable s0 s → ValidAction s a →
      Reachable s0 (take_action s a)

/-!  ### Concrete instances used as evidence  -/

/-- A fully blank 3×3 layout (what `NewLayoutHandler(3, 3)` produces). -/
def blank3 : Layout :=
  [[some '_', some '_', some '_'],
   [some '_', some '_', some '_'],
   [some '_', some '_', some '_']]

/-- A 3×3 layout with blocks at (1,0), (1,1), (2,0), (2,1): one across entry
in row 0 and one down entry in column 2, sharing only the cell (0, 2). -/
def layoutBlocked : Layout :=
  [[some '_', some '_', some '_'],
   [none, none, some '_'],
   [none, none, some '_']]

/-- Six 3-letter words forming the unique fill of a blank 3×3 grid with rows
`ABC` / `DEF` / `GHI` (sorted, as the word pipeline sorts them). -/
def dict6 : List (List Char) :=
  [['A', 'B', 'C'], ['A', 'D', 'G'], ['B', 'E', 'H'],
   ['C', 'F', 'I'], ['D', 'E', 'F'], ['G', 'H', 'I']]

/-- Word index over `dict6`. -/
def wbl6 : Nat → List (List Char) := fun l => if l = 3 then dict6 else []

/-- Two 3-letter words. -/
def dict2 : List (List Char) := [['A', 'A', 'A'], ['B', 'B', 'B']]

/-- Word index over `dict2`. -/
def wbl2 : Nat → List (List Char) := fun l => if l = 3 then dict2 else []

/-- Single-word index used with `layoutBlocked`. -/
def wblABC : Nat → List (List Char) :=
  fun l => if l = 3 then [['A', 'B', 'C']] else []

/-- Initial state on the blocked layout. -/
def stateBlocked : CrosswordState :=
  get_initial_crossword_state layoutBlocked wblABC

/-- Initial state on the blank 3×3 layout with `dict6`. -/
def state6 : CrosswordState := get_initial_crossword_state blank3 wbl6

/-- Initial state on the blank 3×3 layout with `dict2`. -/
def state2 : CrosswordState := get_initial_crossword_state blank3 wbl2

/-!  ### MCTS tree search (`tree_search.py`)  -/

/-- The data of one child inspected by `MCTS.get_best_child`: the child
node's `reward` and `num_visits` together with `child.state.num_options`
(the number of possible words of the child state's next entry). -/
structure ChildNode where
  reward : ℝ
  num_visits : Nat
  num_options : Nat

/-- The UCT-style selection score
`child.reward + exploration_value * np.sqrt(np.log(parent.num_visits) / child.num_visits)`. -/
noncomputable def uct_score (exploration_value : ℝ) (parent_visits : Nat)
    (c : ChildNode) : ℝ :=
  c.reward + exploration_value *
    Real.sqrt (Real.log (parent_visits : ℝ) / (c.num_visits : ℝ))

/-- The effective value used by `get_best_child`: the UCT score, forced to
`0` when `node_options == 0` (dead-end zeroing). -/
noncomputable def node_value (exploration_value : ℝ) (parent_visits : Nat)
    (c : ChildNode) : ℝ :=
  if c.num_options = 0 then 0 else uct_score exploration_value parent_visits c

/-- The replacement test of the loop in `get_best_child`:
`node_value > best_value or (node_value == best_value and node_options > best_options)`. -/
def betterChild (exploration_value : ℝ) (parent_visits : Nat)
    (c b : ChildNode) : Prop :=
  node_value exploration_value parent_visits c
      > node_value exploration_value parent_visits b
    ∨ (node_value exploration_value parent_visits c
          = node_value exploration_value parent_visits b
        ∧ c.num_options > b.num_options)

/-- Left fold keeping the incumbent unless the new element is strictly
`better`; returns the first element attaining the maximum. -/
def pickFirstBy {α : Type} (better : α → α → Prop) [DecidableRel better]
    (b : α) : List α → α
  | [] => b
  | c :: cs => if better c b then pickFirstBy better c cs
               else pickFirstBy better b cs

open Classical in
/-- `MCTS.get_best_child`: fold over the children in iteration order with
`best_value = -inf` sentinel (the first child always replaces it), replacing
the incumbent exactly when `betterChild` holds. -/
noncomputable def get_best_child (exploration_value : ℝ) (parent_visits : Nat) :
    List ChildNode → Option ChildNode
  | [] => none
  | c :: cs => some (pickFirstBy (betterChild exploration_value parent_visits) c cs)

/-- The mutable per-node statistics touched by `MCTS.backpropagate`. -/
structure NodeStats where
  num_visits : Nat
  reward : ℝ

/-- The tree heap for `backpropagate`, modelled as node statistics indexed by
node id. -/
abbrev NodeHeap := Nat → NodeStats

/-- The chain of nodes visited by `backpropagate`'s
`while node is not None: ...; node = node.parent` walk: the start node and
its ancestors up to the root (whose parent is `None`). -/
inductive ParentChain (parent : Nat → Option Nat) : Nat → List Nat → Prop
  | last {n} : parent n = none → ParentChain parent n [n]
  | cons {n m l} : parent n = some m → ParentChain parent m l →
      ParentChain parent n (n :: l)

/-- `MCTS.backpropagate`: along the walk, `num_visits += 1` and
`reward = max(reward, node.reward)`; every other node is untouched. -/
def backpropagate (reward : ℝ) : NodeHeap → List Nat → NodeHeap
  | stats, [] => stats
  | stats, n :: rest =>
    backpropagate reward
      (fun i => if i = n then
        ⟨(stats n).num_visits + 1, max reward (stats n).reward⟩
      else stats i) rest

/-- Concrete two-node heap: node 0 is a child of the root node 1. -/
def devParent : Nat → Option Nat := fun i => if i = 0 then some 1 else none

/-- Concrete statistics: both nodes unvisited with reward 0. -/
def devStats : NodeHeap := fun _ => ⟨0, 0⟩

/-!  ### Functional MCTS solver (for the determinism claim)

A purely functional rendering of `MCTS` + `fill_current_layout` +
`generate_crossword`: the tree is an inductive value, each round rebuilds the
path it touches (equivalent to Python's in-place `backpropagate`), and every
random draw threads the single explicit `Rng` state.  Recursions that Python
bounds by reaching a terminal state carry a fuel argument, always called with
fuel larger than the number of entries, which bounds the tree depth and the
rollout length. -/

/-- `TreeNode`: state, visit count, best observed reward, children keyed by
action in insertion order, and the `is_fully_expanded` flag (`is_terminal` is
a function of the state). -/
inductive MTree where
  | node (state : CrosswordState) (num_visits : Nat) (reward : ℝ)
      (children : List (List Char × MTree)) (fully_expanded : Bool)

def MTree.state : MTree → CrosswordState
  | .node s _ _ _ _ => s

def MTree.num_visits : MTree → Nat
  | .node _ v _ _ _ => v

def MTree.reward : MTree → ℝ
  | .node _ _ r _ _ => r

def MTree.children : MTree → List (List Char × MTree)
  | .node _ _ _ ch _ => ch

def MTree.fully_expanded : MTree → Bool
  | .node _ _ _ _ fe => fe

/-- `TreeNode.__init__`: zero visits and reward, no children,
`is_fully_expanded = is_terminal`. -/
def mkNode (s : CrosswordState) : MTree :=
  .node s 0 0 [] (is_terminal s)

/-- One `backpropagate` touch of a node: `num_visits += 1`,
`reward = max(reward, received)`. -/
noncomputable def MTree.bump (r : ℝ) : MTree → MTree
  | .node s v rw ch fe => .node s (v + 1) (max r rw) ch fe

/-- Replace the subtree stored under action `a`. -/
def replaceChild (t : MTree) (a : List Char) (c : MTree) : MTree :=
  match t with
  | .node s v rw ch fe =>
    .node s v rw (ch.map (fun p => if p.1 = a then (a, c) else p)) fe

/-- The selection value of a live child: the UCT score with dead-end zeroing
(`child.state.num_options == 0`; a success-terminal child has `None` options
and is not zeroed). -/
noncomputable def childValue (ev : ℝ) (pv : Nat) (t : MTree) : ℝ :=
  if num_options t.state = some 0 then 0
  else t.reward + ev * Real.sqrt (Real.log (pv : ℝ) / (t.num_visits : ℝ))

/-- The options tie-breaker of a live child (`None`, which Python cannot
compare and would raise on, is modelled as 0). -/
def childOptions (t : MTree) : Nat :=
  (num_options t.state).getD 0

/-- The replacement test of `get_best_child` over live tree children. -/
noncomputable def betterNode (ev : ℝ) (pv : Nat) (c b : MTree) : Prop :=
  childValue ev pv c > childValue ev pv b
    ∨ (childValue ev pv c = childValue ev pv b
        ∧ childOptions c > childOptions b)

open Classical in
/-- `MCTS.get_best_child` over the live children list (action, subtree). -/
noncomputable def best_child_live (ev : ℝ) (pv : Nat) :
    List (List Char × MTree) → Option (List Char × MTree)
  | [] => none
  | c :: cs => some (pickFirstBy (fun x y => betterNode ev pv x.2 y.2) c cs)

/-- `MCTS.rollout_policy`: take uniformly random actions until a terminal
state (fuel bounds the walk; it is called with fuel exceeding the number of
entries, which bounds any valid action sequence). -/
def rollout_policy : Nat → CrosswordState → Rng → Nat × Rng
  | 0, s, g => (get_reward s, g)
  | fuel + 1, s, g =>
    if is_terminal s then (get_reward s, g)
    else
      let acts := get_possible_actions s
      let (i, g') := rngBelow g acts.length
      match acts[i]? with
      | none => (get_reward s, g')
      | some a => rollout_policy fuel (take_action s a) g'

open Classical in
/-- `MCTS.execute_round`: selection (descend through fully expanded nodes by
best child), expansion (first untried action), rollout from the new or
terminal node, and backpropagation along the descent path (each level bumps
itself with the received reward on the way back up). -/
noncomputable def execute_round (ev : ℝ) (rolloutFuel : Nat) :
    Nat → MTree → Rng → MTree × ℝ × Rng
  | 0, t, g => (t, t.reward, g)
  | fuel + 1, t, g =>
    if is_terminal t.state then
      let r : ℝ := (get_reward t.state : Nat)
      (t.bump r, r, g)
    else if t.fully_expanded then
      match best_child_live ev t.num_visits t.children with
      | none => (t, t.reward, g)
      | some (a, c) =>
        let (c', r, g') := execute_round ev rolloutFuel fuel c g
        ((replaceChild t a c').bump r, r, g')
    else
      match (get_possible_actions t.state).find?
          (fun a => !(t.children.any (fun p => p.1 == a))) with
      | none => (t, t.reward, g)
      | some a =>
        let childState := take_action t.state a
        let (r, g') := rollout_policy rolloutFuel childState g
        let rr : ℝ := (r : Nat)
        let child := (mkNode childState).bump rr
        let newChildren := t.children ++ [(a, child)]
        let fe := (get_possible_actions t.state).length == newChildren.length
        (.node t.state (t.num_visits + 1) (max rr t.reward) newChildren fe, rr, g')

/-- The `for _ in range(iteration_limit): self.execute_round()` loop of
`MCTS.search`. -/
noncomputable def searchRounds (ev : ℝ) (rolloutFuel depthFuel : Nat) :
    Nat → MTree → Rng → MTree × Rng
  | 0, t, g => (t, g)
  | n + 1, t, g =>
    let (t', _, g') := execute_round ev rolloutFuel depthFuel t g
    searchRounds ev rolloutFuel depthFuel n t' g'

/-- `MCTS.get_known_depth`: count generations below the root in which every
frontier node is fully expanded, stopping at the first generation that is
not, or at the first empty child set. -/
def get_known_depth : Nat → List MTree → Nat
  | 0, _ => 0
  | fuel + 1, parents =>
    if parents.all (fun p => p.fully_expanded) then
      let children := parents.flatMap (fun p => p.children.map Prod.snd)
      if children.isEmpty then 0
      else 1 + get_known_depth fuel children
    else 0

/-- One row of the per-step statistics table built by
`fill_current_layout`. -/
structure StepStat where
  index : Nat
  options : Nat
  word : List Char
  expected_reward : ℝ
  num_visits : Nat
  known_future_generations : Nat

/-- The driver loop of `fill_current_layout`: while the current node's state
is not terminal, run a search budget, commit the best child with exploration
`0`, record the chosen word (the committed action) and the per-step
statistics, and continue from the committed child (which keeps its
subtree). -/
noncomputable def solveLoop (ev : ℝ) (iterations numEntries : Nat) :
    Nat → MTree → Rng → List (List Char) × List StepStat × CrosswordState × Rng
  | 0, t, g => ([], [], t.state, g)
  | fuel + 1, t, g =>
    if is_terminal t.state then ([], [], t.state, g)
    else
      let (t', g') := searchRounds ev (numEntries + 1) (numEntries + 1) iterations t g
      match best_child_live 0 t'.num_visits t'.children with
      | none => ([], [], t'.state, g')
      | some (a, c) =>
        let stat : StepStat :=
          { index := ((get_next_entry t'.state).map Entry.index).getD 0
            options := (num_options t'.state).getD 0
            word := a
            expected_reward := c.reward
            num_visits := c.num_visits
            known_future_generations := get_known_depth (numEntries + 1) [t'] }
        let (ws, stats, final, g'') := solveLoop ev iterations numEntries fuel c g'
        (a :: ws, stat :: stats, final, g'')

/-- `fill_current_layout`: build the word index and the initial state, run
the commit loop with `exploration_constant = num_entries`, and report whether
the final state is solved (`next_entry_to_be_filled is None`). -/
noncomputable def fill_current_layout (layout : Layout)
    (clean : List (List Char)) (iteration_limit : Nat) (g : Rng) :
    Bool × List (List Char) × List StepStat × Rng :=
  let wbl := separate_words_by_length clean
  let s0 := get_initial_crossword_state layout wbl
  let numEntries := s0.entries.length
  let (ws, stats, final, g') :=
    solveLoop (numEntries : ℝ) iteration_limit numEntries (numEntries + 1)
      (mkNode s0) g
  (decide (get_next_entry final = none), ws, stats, g')

/-- `generate_crossword` (the portions relevant to the solver): seed the RNG
once, run the word pipeline (normalize + uniform subsample, consuming the
RNG), then fill the layout; returns (solved, committed words, per-step
statistics).  `word_lengths` is the set of entry lengths of the layout. -/
noncomputable def generate_crossword (random_seed : Nat) (layout : Layout)
    (raw_words : List RawWord) (max_num_words : Nat)
    (max_mcts_iterations : Nat) :
    Bool × List (List Char) × List StepStat :=
  let g0 : Rng := ⟨random_seed⟩
  let word_lengths :=
    ((extract_entries_from_layout layout).map (fun p => p.2.length)).dedup
  let (clean, g1) := preprocess_words word_lengths raw_words max_num_words g0
  let (solved, ws, stats, _) :=
    fill_current_layout layout clean max_mcts_iterations g1
  (solved, ws, stats)

/-!  ### Invariants  -/

/-- Entry list aligned with entry indices: the entry stored at position `i`
carries `index = i`. -/
def AlignedList (l : List Entry) : Prop :=
  ∀ (i : Nat) (e : Entry), l[i]? = some e → e.index = i

/-- Alignment invariant on a state. -/
def Aligned (s : CrosswordState) : Prop :=
  AlignedList s.entries

/-- Every candidate word of every entry matches the entry's current pattern. -/
def CandidatesMatch (s : CrosswordState) : Prop :=
  ∀ e ∈ s.entries, ∀ w ∈ e.possible_words, matchesPattern e.pattern w = true

/-- The direction of the `word_fixed` iff that the code maintains:
a fixed entry has all letters fixed. -/
def FixedImpliesFull (s : CrosswordState) : Prop :=
  ∀ e ∈ s.entries, e.word_fixed = true → e.num_letters_fixed = e.length

/-- Well-formedness of a word index `wbl` (what `words_by_length` built by the
word pipeline guarantees): words listed under length `l` have length `l` and
consist of `A`–`Z` letters only. -/
def CleanIndex (wbl : Nat → List (List Char)) : Prop :=
  ∀ l w, w ∈ wbl l → w.length = l ∧ w.all isAZ = true

/-!  ## Theorems  -/

theorem mem_insertSorted (w x : List Char) (l : List (List Char)) :
    x ∈ insertSorted w l ↔ x = w ∨ x ∈ l := by
  induction l with
  | nil => simp [insertSorted]
  | cons a as ih =>
    simp only [insertSorted]
    by_cases h : lexLe w a = true
    · simp [h]
    · simp only [h]
      simp [ih]
      tauto

theorem mem_sortWords (x : List Char) (ws : List (List Char)) :
    x ∈ sortWords ws ↔ x ∈ ws := by
  induction ws with
  | nil => simp [sortWords]
  | cons a as ih =>
    simp only [sortWords, List.foldr_cons]
    rw [mem_insertSorted]
    simp only [sortWords] at ih
    rw [ih]
    simp

theorem matchesPattern_self : ∀ w : List Char, matchesPattern w w = true := by
  intro w
  induction w with
  | nil => rfl
  | cons c cs ih =>
    simp only [matchesPattern, List.zip_cons_cons, List.all_cons] at ih ⊢
    simp_all

theorem updateAffected_index (used : List (List Char)) (a : List Char)
    (cp : Nat) (e : Entry) (ap : Nat) :
    (updateAffected used a cp e ap).index = e.index := rfl

theorem alignedList_set {l : List Entry} {j : Nat} {x : Entry}
    (h : AlignedList l) (hx : x.index = j) : AlignedList (l.set j x) := by
  intro i e he
  rw [List.getElem?_set] at he
  by_cases hji : j = i
  · subst hji
    by_cases hlen : j < l.length
    · rw [if_pos rfl, if_pos hlen] at he
      cases he
      exact hx
    · rw [if_pos rfl, if_neg hlen] at he
      cases he
  · rw [if_neg hji] at he
    exact h i e he

theorem foldl_takeActionStep_aligned (s : CrosswordState) (a : List Char) :
    ∀ (ds : List (Nat × (Nat × Nat))) (acc : List Entry),
      AlignedList acc → AlignedList (ds.foldl (takeActionStep s a) acc) := by
  intro ds
  induction ds with
  | nil => intro acc h; exact h
  | cons d ds ih =>
    intro acc h
    apply ih
    unfold takeActionStep
    cases s.entries[d.2.1]? with
    | none => exact h
    | some affected_old =>
      by_cases hf : affected_old.word_fixed
      · simpa [hf] using h
      · simp only [hf]
        simp only [Bool.false_eq_true, if_false]
        exact alignedList_set h (updateAffected_index _ _ _ _ _)

theorem foldl_takeActionStep_mem {P : Entry → Prop} (s : CrosswordState)
    (a : List Char)
    (hupd : ∀ cp e ap, e ∈ s.entries →
      P (updateAffected (words_already_used s) a cp e ap)) :
    ∀ (ds : List (Nat × (Nat × Nat))) (acc : List Entry),
      (∀ e ∈ acc, P e) → ∀ e ∈ ds.foldl (takeActionStep s a) acc, P e := by
  intro ds
  induction ds with
  | nil => intro acc h; exact h
  | cons d ds ih =>
    intro acc h
    apply ih
    unfold takeActionStep
    cases hlook : s.entries[d.2.1]? with
    | none => exact h
    | some affected_old =>
      by_cases hf : affected_old.word_fixed
      · simpa [hf] using h
      · simp only [hf]
        simp only [Bool.false_eq_true, if_false]
        intro e he
        rcases List.mem_or_eq_of_mem_set he with he' | rfl
        · exact h e he'
        · exact hupd _ _ _ (List.getElem?_mem hlook)

theorem aligned_take_action (s : CrosswordState) (a : List Char)
    (h : Aligned s) : Aligned (take_action s a) := by
  unfold take_action
  cases get_next_entry s with
  | none => exact h
  | some next_old =>
    exact foldl_takeActionStep_aligned s a _ _ (alignedList_set h rfl)

theorem aligned_initial (layout : Layout) (wbl : Nat → List (List Char)) :
    Aligned (get_initial_crossword_state layout wbl) := by
  intro i e he
  unfold get_initial_crossword_state at he
  simp only [List.getElem?_map] at he
  rcases Nat.lt_or_ge i (extract_entries_from_layout layout).length with hlt | hge
  · rw [List.getElem?_range hlt] at he
    simp only [Option.map_some'] at he
    cases he
    rfl
  · rw [List.getElem?_eq_none (by simpa using hge)] at he
    cases he

theorem aligned_reachable (layout : Layout) (wbl : Nat → List (List Char))
    (s : CrosswordState)
    (h : Reachable (get_initial_crossword_state layout wbl) s) : Aligned s := by
  induction h with
  | refl => exact aligned_initial layout wbl
  | step _ _ ih => exact aligned_take_action _ _ ih

theorem get_coordinates_length (row col : Nat) (o : Orient) (length : Nat) :
    (get_coordinates row col o length).length = length := by
  cases o <;> simp [get_coordinates]

theorem extract_coords_length (layout : Layout) :
    ∀ p ∈ extract_entries_from_layout layout, p.2.length = p.1.length := by
  intro p hp
  unfold extract_entries_from_layout at hp
  simp only [List.mem_flatMap, List.mem_range] at hp
  obtain ⟨row, _, col, _, hcell⟩ := hp
  unfold entriesAtCell at hcell
  split at hcell
  · cases hcell
  · simp only [List.mem_append] at hcell
    rcases hcell with hc | hc <;>
    · split at hc
      · unfold entryForRun at hc
        split at hc
        · cases hc
        · simp only [List.mem_singleton] at hc
          subst hc
          simp [get_coordinates_length]
      · cases hc

theorem matchesPattern_of_blank {p w : List Char} (hp : ∀ c ∈ p, c = '_')
    (hlen : p.length = w.length) (hw : w.all isAZ = true) :
    matchesPattern p w = true := by
  simp only [matchesPattern, hlen, beq_self_eq_true, Bool.true_and,
    List.all_eq_true] at hw ⊢
  intro pair hpair
  have hmem := List.of_mem_zip hpair
  have h1 : pair.1 = '_' := hp _ hmem.1
  have h2 : isAZ pair.2 = true := hw _ hmem.2
  simp [h1, h2]

theorem num_fixed_zero_blank {p : List Char}
    (h : (p.filter (fun c => decide (c ≠ '_'))).length = 0) : ∀ c ∈ p, c = '_' := by
  intro c hc
  by_contra hne
  have : c ∈ p.filter (fun c => decide (c ≠ '_')) := by
    simp [List.mem_filter, hc, hne]
  rw [List.length_eq_zero] at h
  rw [h] at this
  cases this

theorem candidatesMatch_initial (layout : Layout) (wbl : Nat → List (List Char))
    (hclean : CleanIndex wbl) :
    CandidatesMatch (get_initial_crossword_state layout wbl) := by
  intro e he w hw
  unfold get_initial_crossword_state at he
  simp only [List.mem_map, List.mem_range] at he
  obtain ⟨i, hi, rfl⟩ := he
  simp only at hw ⊢
  have hpc : (extract_entries_from_layout layout).getD i ([], [])
      ∈ extract_entries_from_layout layout := by
    rw [List.getD_eq_getElem?_getD, List.getElem?_eq_getElem hi]
    exact List.getElem_mem hi
  have hlen : ((extract_entries_from_layout layout).getD i ([], [])).2.length
      = ((extract_entries_from_layout layout).getD i ([], [])).1.length :=
    extract_coords_length layout _ hpc
  split at hw
  · -- word_fixed: possible_words = [pattern]
    simp only [List.mem_singleton] at hw
    subst hw
    exact matchesPattern_self _
  · split at hw
    · -- partially fixed: filtered by the pattern
      exact (List.mem_filter.mp hw).2
    · -- blank pattern: every clean word of the right length matches
      rename_i hfix hpos
      have hz : ((((extract_entries_from_layout layout).getD i ([], [])).1.filter
          (fun c => decide (c ≠ '_'))).length) = 0 := by omega
      have hcw := hclean _ _ hw
      exact matchesPattern_of_blank (num_fixed_zero_blank hz)
        (by rw [hcw.1, hlen]) hcw.2

theorem candidatesMatch_take_action (s : CrosswordState) (a : List Char)
    (h : CandidatesMatch s) :
    CandidatesMatch (take_action s a) := by
  unfold take_action
  cases hn : get_next_entry s with
  | none => exact h
  | some next_old =>
    intro e he w hw
    refine foldl_takeActionStep_mem (P := fun e =>
      ∀ w ∈ e.possible_words, matchesPattern e.pattern w = true) s a ?_ _ _ ?_ e he w hw
    · intro cp e' ap _ w' hw'
      have := (List.mem_filter.mp hw').2
      exact (Bool.and_elim_left this)
    · intro e' he' w' hw'
      rcases List.mem_or_eq_of_mem_set he' with h' | rfl
      · exact h e' h' w' hw'
      · simp only [fixEntry, List.mem_singleton] at hw'
        subst hw'
        exact matchesPattern_self _

theorem fixedImpliesFull_initial (layout : Layout)
    (wbl : Nat → List (List Char)) :
    FixedImpliesFull (get_initial_crossword_state layout wbl) := by
  intro e he hfix
  unfold get_initial_crossword_state at he
  simp only [List.mem_map, List.mem_range] at he
  obtain ⟨i, hi, rfl⟩ := he
  simpa using hfix

theorem fixedImpliesFull_take_action (s : CrosswordState) (a : List Char)
    (h : FixedImpliesFull s) : FixedImpliesFull (take_action s a) := by
  unfold take_action
  cases hn : get_next_entry s with
  | none => exact h
  | some next_old =>
    intro e he
    refine foldl_takeActionStep_mem (P := fun e =>
      e.word_fixed = true → e.num_letters_fixed = e.length) s a ?_ _ _ ?_ e he
    · intro cp e' ap _ hfix
      simp [updateAffected] at hfix
    · intro e' he' hfix
      rcases List.mem_or_eq_of_mem_set he' with h' | rfl
      · exact h e' h' hfix
      · rfl

theorem cleanIndex_wbl2 : CleanIndex wbl2 := by
  intro l w hw
  unfold wbl2 at hw
  split at hw
  · rename_i hl
    subst hl
    fin_cases hw <;> exact ⟨by decide, by decide⟩
  · cases hw

/-- C2 (amended): in every state reachable by valid `take_action` calls from
an initial crossword state over a clean word index, every entry's
`possible_words` consists only of words matching that entry's current pattern.
The stronger claimed equality with "initial candidates matching the pattern
and disjoint from `words_already_used`" fails for entries that do not cross
the entry just filled (see the counterexample): such entries keep their
previous candidate lists, which may still contain already-used words. -/
theorem reachable_candidates_match_pattern (layout : Layout)
    (wbl : Nat → List (List Char)) (s : CrosswordState)
    (hclean : CleanIndex wbl)
    (h : Reachable (get_initial_crossword_state layout wbl) s) :
    CandidatesMatch s := by
  induction h with
  | refl => exact candidatesMatch_initial layout wbl hclean
  | step _ _ ih => exact candidatesMatch_take_action _ _ ih

/-- Witness for the amended C2 theorem at the concrete initial state
`state2`. -/
theorem reachable_candidates_match_pattern_witness :
    CleanIndex wbl2 ∧ CandidatesMatch state2 :=
  ⟨cleanIndex_wbl2,
    reachable_candidates_match_pattern blank3 wbl2 state2 cleanIndex_wbl2
      Reachable.refl⟩

/-- C3 (amended): in every reachable state, `word_fixed = true` implies
`num_letters_fixed = length`.  The claimed converse is false: an entry whose
pattern becomes fully fixed letter-by-letter through crossings keeps
`word_fixed = false` until it is itself filled (see the counterexample),
because `take_action` writes `word_fixed = False` on affected entries
unconditionally. -/
theorem reachable_word_fixed_implies_full (layout : Layout)
    (wbl : Nat → List (List Char)) (s : CrosswordState)
    (h : Reachable (get_initial_crossword_state layout wbl) s) :
    FixedImpliesFull s := by
  induction h with
  | refl => exact fixedImpliesFull_initial layout wbl
  | step _ _ ih => exact fixedImpliesFull_take_action _ _ ih

/-- Witness for the amended C3 theorem at the concrete initial state
`state6`. -/
theorem reachable_word_fixed_implies_full_witness :
    FixedImpliesFull state6 :=
  reachable_word_fixed_implies_full blank3 wbl6 state6 Reachable.refl

/-- C10: in every state reachable from an initial crossword state (the
initial state and any state produced by valid `take_action` calls), the
entries list is aligned with entry indices: the entry stored at position `i`
carries `index = i`.  `take_action` writes the replacement entry at position
`next_old.index` and affected entries at position `affected_old.index`, and
both writes preserve this alignment. -/
theorem reachable_entries_aligned (layout : Layout)
    (wbl : Nat → List (List Char)) (s : CrosswordState)
    (h : Reachable (get_initial_crossword_state layout wbl) s) :
    ∀ (i : Nat) (e : Entry), s.entries[i]? = some e → e.index = i :=
  aligned_reachable layout wbl s h

/-- Witness for the C10 theorem at the concrete initial state `state6`. -/
theorem reachable_entries_aligned_witness :
    state6.entries[4]? = some (state6.entries.getD 4 dummyEntry)
    ∧ (state6.entries.getD 4 dummyEntry).index = 4 :=
  ⟨by decide,
    reachable_entries_aligned blank3 wbl6 state6 Reachable.refl 4 _ (by decide)⟩

/-- C5: a state with `is_terminal = false` always has a non-empty action
list: non-termination means there is an empty entry, hence a next entry, and
that it has at least one possible word; `get_possible_actions` returns those
words.  This holds for every `CrosswordState`, in particular every reachable
one, so the rollout's error branch for a non-terminal state with an empty
action list is unreachable. -/
theorem nonterminal_state_has_actions (s : CrosswordState)
    (h : is_terminal s = false) : get_possible_actions s ≠ [] := by
  unfold is_terminal at h
  rw [Bool.or_eq_false_iff] at h
  obtain ⟨h1, h2⟩ := h
  unfold get_possible_actions
  cases hn : get_next_entry s with
  | none =>
    exfalso
    unfold get_next_entry at hn
    cases hemp : empty_entries s with
    | nil => rw [hemp] at h1; simp [List.isEmpty] at h1
    | cons x xs => rw [hemp] at hn; cases hn
  | some e =>
    rw [hn] at h2
    simp only [beq_eq_false_iff_ne, ne_eq] at h2
    show e.possible_words ≠ []
    intro hempty
    apply h2
    simp [Entry.num_possible_words, hempty]

/-- Witness for the C5 theorem at the concrete state `state6`. -/
theorem nonterminal_state_has_actions_witness :
    is_terminal state6 = false ∧ get_possible_actions state6 ≠ [] :=
  ⟨by decide, nonterminal_state_has_actions state6 (by decide)⟩

theorem minByNumPossible_spec :
    ∀ (cs : List Entry) (b : Entry),
      ∃ i : Nat, (b :: cs)[i]? = some (minByNumPossible b cs)
        ∧ (∀ c ∈ b :: cs,
            (minByNumPossible b cs).num_possible_words ≤ c.num_possible_words)
        ∧ ∀ j : Nat, j < i → ∀ c : Entry, (b :: cs)[j]? = some c →
            (minByNumPossible b cs).num_possible_words < c.num_possible_words := by
  intro cs
  induction cs with
  | nil =>
    intro b
    refine ⟨0, rfl, ?_, ?_⟩
    · intro c hc
      rcases List.mem_cons.mp hc with rfl | hc
      · exact Nat.le_refl _
      · cases hc
    · intro j hj
      omega
  | cons c cs ih =>
    intro b
    by_cases hlt : c.num_possible_words < b.num_possible_words
    · have hres : minByNumPossible b (c :: cs) = minByNumPossible c cs := by
        simp [minByNumPossible, hlt]
      obtain ⟨i, hget, hmin, hfirst⟩ := ih c
      refine ⟨i + 1, ?_, ?_, ?_⟩
      · rw [hres, List.getElem?_cons_succ]
        exact hget
      · intro x hx
        rw [hres]
        rcases List.mem_cons.mp hx with rfl | hx
        · exact Nat.le_of_lt (Nat.lt_of_le_of_lt (hmin c (List.mem_cons_self c cs)) hlt)
        · exact hmin x hx
      · intro j hj x hxget
        rw [hres]
        cases j with
        | zero =>
          rw [List.getElem?_cons_zero] at hxget
          cases hxget
          exact Nat.lt_of_le_of_lt (hmin c (List.mem_cons_self c cs)) hlt
        | succ j' =>
          rw [List.getElem?_cons_succ] at hxget
          exact hfirst j' (by omega) x hxget
    · have hres : minByNumPossible b (c :: cs) = minByNumPossible b cs := by
        simp [minByNumPossible, hlt]
      have hle : b.num_possible_words ≤ c.num_possible_words := Nat.le_of_not_lt hlt
      obtain ⟨i, hget, hmin, hfirst⟩ := ih b
      cases i with
      | zero =>
        rw [List.getElem?_cons_zero] at hget
        have hb : minByNumPossible b cs = b := (Option.some.inj hget).symm
        refine ⟨0, ?_, ?_, ?_⟩
        · rw [hres, List.getElem?_cons_zero, hb]
        · intro x hx
          rw [hres]
          rcases List.mem_cons.mp hx with rfl | hx
          · exact hmin x (List.mem_cons_self x cs)
          · rcases List.mem_cons.mp hx with rfl | hx
            · rw [hb]
              exact hle
            · exact hmin x (List.mem_cons_of_mem b hx)
        · intro j hj
          omega
      | succ i' =>
        refine ⟨i' + 2, ?_, ?_, ?_⟩
        · rw [hres, List.getElem?_cons_succ, List.getElem?_cons_succ]
          rw [List.getElem?_cons_succ] at hget
          exact hget
        · intro x hx
          rw [hres]
          rcases List.mem_cons.mp hx with rfl | hx
          · exact hmin x (List.mem_cons_self x cs)
          · rcases List.mem_cons.mp hx with rfl | hx
            · exact Nat.le_of_lt (Nat.lt_of_lt_of_le
                (hfirst 0 (by omega) b List.getElem?_cons_zero) hle)
            · exact hmin x (List.mem_cons_of_mem b hx)
        · intro j hj x hxget
          rw [hres]
          cases j with
          | zero =>
            rw [List.getElem?_cons_zero] at hxget
            cases hxget
            exact hfirst 0 (by omega) _ List.getElem?_cons_zero
          | succ j' =>
            rw [List.getElem?_cons_succ] at hxget
            cases j' with
            | zero =>
              rw [List.getElem?_cons_zero] at hxget
              cases hxget
              exact Nat.lt_of_lt_of_le
                (hfirst 0 (by omega) b List.getElem?_cons_zero) hle
            | succ j'' =>
              rw [List.getElem?_cons_succ] at hxget
              exact hfirst (j'' + 1) (by omega) x
                (by rw [List.getElem?_cons_succ]; exact hxget)

/-- C4: for every reachable `CrosswordState`, `get_next_entry` is `none` iff
`empty_entries` is empty; otherwise it returns an empty entry with the
minimum number of possible words, and among the empty entries attaining that
minimum it is the one with the lowest `index` (Python's `min` keeps the first
minimal element, and in a reachable state the entries — hence the filtered
empty entries — are ordered by ascending index). -/
theorem next_entry_most_constrained (layout : Layout)
    (wbl : Nat → List (List Char)) (s : CrosswordState)
    (h : Reachable (get_initial_crossword_state layout wbl) s) :
    (get_next_entry s = none ↔ empty_entries s = [])
    ∧ ∀ e, get_next_entry s = some e →
        e ∈ empty_entries s
        ∧ (∀ c ∈ empty_entries s, e.num_possible_words ≤ c.num_possible_words)
        ∧ ∀ c ∈ empty_entries s,
            c.num_possible_words = e.num_possible_words → e.index ≤ c.index := by
  have halign := aligned_reachable layout wbl s h
  have hpw : (empty_entries s).Pairwise (fun a b => a.index < b.index) := by
    have hpe : s.entries.Pairwise (fun a b => a.index < b.index) := by
      rw [List.pairwise_iff_getElem]
      intro i j hi hj hij
      have h1 := halign i _ (List.getElem?_eq_getElem hi)
      have h2 := halign j _ (List.getElem?_eq_getElem hj)
      rw [h1, h2]
      exact hij
    exact List.Pairwise.sublist (List.filter_sublist s.entries) hpe
  constructor
  · unfold get_next_entry
    cases hemp : empty_entries s with
    | nil => simp
    | cons x xs => simp
  · intro e he
    unfold get_next_entry at he
    cases hemp : empty_entries s with
    | nil => rw [hemp] at he; cases he
    | cons x xs =>
      rw [hemp] at he
      cases he
      obtain ⟨i, hget, hmin, hfirst⟩ := minByNumPossible_spec xs x
      refine ⟨List.getElem?_mem hget, hmin, ?_⟩
      intro c hc hceq
      obtain ⟨j, hj⟩ := List.mem_iff_getElem?.mp hc
      rcases Nat.lt_trichotomy j i with hji | hji | hji
      · exact absurd hceq (Nat.ne_of_lt (hfirst j hji c hj)).symm
      · subst hji
        rw [hget] at hj
        cases hj
        exact Nat.le_refl _
      · rw [hemp] at hpw
        rw [List.pairwise_iff_getElem] at hpw
        obtain ⟨hilt, hie⟩ := List.getElem?_eq_some_iff.mp hget
        obtain ⟨hjlt, hje⟩ := List.getElem?_eq_some_iff.mp hj
        have := hpw i j hilt hjlt hji
        rw [hie, hje] at this
        exact Nat.le_of_lt this

/-- Witness for the C4 theorem at the concrete initial state `state6`. -/
theorem next_entry_most_constrained_witness :
    (get_next_entry state6 = none ↔ empty_entries state6 = [])
    ∧ ∀ e, get_next_entry state6 = some e →
        e ∈ empty_entries state6
        ∧ (∀ c ∈ empty_entries state6,
            e.num_possible_words ≤ c.num_possible_words)
        ∧ ∀ c ∈ empty_entries state6,
            c.num_possible_words = e.num_possible_words → e.index ≤ c.index :=
  next_entry_most_constrained blank3 wbl6 state6 Reachable.refl

theorem pickFirstBy_spec {α : Type} {κ : Type} [LinearOrder κ] (k : α → κ)
    (better : α → α → Prop) [DecidableRel better]
    (hb : ∀ c b, better c b ↔ k b < k c) :
    ∀ (cs : List α) (b : α),
      ∃ i : Nat, (b :: cs)[i]? = some (pickFirstBy better b cs)
        ∧ (∀ c ∈ b :: cs, k c ≤ k (pickFirstBy better b cs))
        ∧ ∀ j : Nat, j < i → ∀ c : α, (b :: cs)[j]? = some c →
            k c < k (pickFirstBy better b cs) := by
  intro cs
  induction cs with
  | nil =>
    intro b
    refine ⟨0, rfl, ?_, ?_⟩
    · intro c hc
      rcases List.mem_cons.mp hc with rfl | hc
      · exact le_refl _
      · cases hc
    · intro j hj
      omega
  | cons c cs ih =>
    intro b
    by_cases hcb : better c b
    · have hres : pickFirstBy better b (c :: cs) = pickFirstBy better c cs := by
        simp [pickFirstBy, hcb]
      have hlt : k b < k c := (hb c b).mp hcb
      obtain ⟨i, hget, hmin, hfirst⟩ := ih c
      refine ⟨i + 1, ?_, ?_, ?_⟩
      · rw [hres, List.getElem?_cons_succ]
        exact hget
      · intro x hx
        rw [hres]
        rcases List.mem_cons.mp hx with rfl | hx
        · exact le_of_lt (lt_of_lt_of_le hlt (hmin c (List.mem_cons_self c cs)))
        · exact hmin x hx
      · intro j hj x hxget
        rw [hres]
        cases j with
        | zero =>
          rw [List.getElem?_cons_zero] at hxget
          cases hxget
          exact lt_of_lt_of_le hlt (hmin c (List.mem_cons_self c cs))
        | succ j' =>
          rw [List.getElem?_cons_succ] at hxget
          exact hfirst j' (by omega) x hxget
    · have hres : pickFirstBy better b (c :: cs) = pickFirstBy better b cs := by
        simp [pickFirstBy, hcb]
      have hle : k c ≤ k b := le_of_not_lt (fun hlt => hcb ((hb c b).mpr hlt))
      obtain ⟨i, hget, hmin, hfirst⟩ := ih b
      cases i with
      | zero =>
        rw [List.getElem?_cons_zero] at hget
        have hbeq : pickFirstBy better b cs = b := (Option.some.inj hget).symm
        refine ⟨0, ?_, ?_, ?_⟩
        · rw [hres, List.getElem?_cons_zero, hbeq]
        · intro x hx
          rw [hres]
          rcases List.mem_cons.mp hx with rfl | hx
          · exact hmin x (List.mem_cons_self x cs)
          · rcases List.mem_cons.mp hx with rfl | hx
            · rw [hbeq]
              exact hle
            · exact hmin x (List.mem_cons_of_mem b hx)
        · intro j hj
          omega
      | succ i' =>
        refine ⟨i' + 2, ?_, ?_, ?_⟩
        · rw [hres, List.getElem?_cons_succ, List.getElem?_cons_succ]
          rw [List.getElem?_cons_succ] at hget
          exact hget
        · intro x hx
          rw [hres]
          rcases List.mem_cons.mp hx with rfl | hx
          · exact hmin x (List.mem_cons_self x cs)
          · rcases List.mem_cons.mp hx with rfl | hx
            · exact le_of_lt (lt_of_le_of_lt hle
                (hfirst 0 (by omega) b List.getElem?_cons_zero))
            · exact hmin x (List.mem_cons_of_mem b hx)
        · intro j hj x hxget
          rw [hres]
          cases j with
          | zero =>
            rw [List.getElem?_cons_zero] at hxget
            cases hxget
            exact hfirst 0 (by omega) _ List.getElem?_cons_zero
          | succ j' =>
            rw [List.getElem?_cons_succ] at hxget
            cases j' with
            | zero =>
              rw [List.getElem?_cons_zero] at hxget
              cases hxget
              exact lt_of_le_of_lt hle
                (hfirst 0 (by omega) b List.getElem?_cons_zero)
            | succ j'' =>
              rw [List.getElem?_cons_succ] at hxget
              exact hfirst (j'' + 1) (by omega) x
                (by rw [List.getElem?_cons_succ]; exact hxget)

theorem betterChild_iff_lex (ev : ℝ) (pv : Nat) (c b : ChildNode) :
    betterChild ev pv c b
      ↔ toLex (node_value ev pv b, b.num_options)
          < toLex (node_value ev pv c, c.num_options) := by
  rw [Prod.Lex.lt_iff]
  unfold betterChild
  constructor
  · rintro (h | ⟨h1, h2⟩)
    · exact Or.inl h
    · exact Or.inr ⟨h1.symm, h2⟩
  · rintro (h | ⟨h1, h2⟩)
    · exact Or.inl h
    · exact Or.inr ⟨h1.symm, h2⟩

theorem node_value_eq_uct {ev : ℝ} {pv : Nat} {c : ChildNode}
    (h : c.num_options ≠ 0) : node_value ev pv c = uct_score ev pv c := by
  simp [node_value, h]

/-- C6: for a parent with at least one child whose children all have nonzero
`num_options`, `get_best_child` returns a child maximizing the score
`c.reward + exploration * sqrt(ln(parent.num_visits) / c.num_visits)` (the
dead-end zeroing never fires under the hypothesis): every other child has a
strictly smaller score, or an equal score and no more `num_options`; and the
returned child is the first in iteration order among those attaining the
maximal (score, options) pair. -/
theorem get_best_child_selects_max (ev : ℝ) (pv : Nat)
    (children : List ChildNode) (hne : children ≠ [])
    (hopt : ∀ c ∈ children, c.num_options ≠ 0) :
    ∃ b, get_best_child ev pv children = some b ∧ b ∈ children
      ∧ (∀ c ∈ children,
          uct_score ev pv c < uct_score ev pv b
          ∨ (uct_score ev pv c = uct_score ev pv b ∧ c.num_options ≤ b.num_options))
      ∧ ∃ i : Nat, children[i]? = some b
          ∧ ∀ j : Nat, j < i → ∀ c : ChildNode, children[j]? = some c →
              uct_score ev pv c < uct_score ev pv b
              ∨ (uct_score ev pv c = uct_score ev pv b
                  ∧ c.num_options < b.num_options) := by
  classical
  cases children with
  | nil => exact absurd rfl hne
  | cons c cs =>
    obtain ⟨i, hget, hmax, hfirst⟩ :=
      pickFirstBy_spec (fun x => toLex (node_value ev pv x, x.num_options))
        (betterChild ev pv)
        (fun x y => by
          rw [betterChild_iff_lex]) cs c
    set b := pickFirstBy (betterChild ev pv) c cs with hb
    have hbmem : b ∈ c :: cs := List.getElem?_mem hget
    have hbopt : b.num_options ≠ 0 := hopt b hbmem
    refine ⟨b, ?_, hbmem, ?_, ⟨i, hget, ?_⟩⟩
    · simp [get_best_child, hb]
    · intro x hx
      have hxl := hmax x hx
      rw [Prod.Lex.le_iff] at hxl
      simp only [node_value_eq_uct (hopt x hx), node_value_eq_uct hbopt] at hxl
      exact hxl
    · intro j hj x hxget
      have hxl := hfirst j hj x hxget
      rw [Prod.Lex.lt_iff] at hxl
      simp only [node_value_eq_uct (hopt x (List.getElem?_mem hxget)),
        node_value_eq_uct hbopt] at hxl
      exact hxl

/-- Witness for the C6 theorem on a concrete two-child list. -/
theorem get_best_child_selects_max_witness :
    ((⟨0, 1, 2⟩ : ChildNode) :: [(⟨1, 1, 3⟩ : ChildNode)]) ≠ []
    ∧ (∀ c ∈ ((⟨0, 1, 2⟩ : ChildNode) :: [(⟨1, 1, 3⟩ : ChildNode)]),
        c.num_options ≠ 0)
    ∧ ∃ b, get_best_child 0 1 ((⟨0, 1, 2⟩ : ChildNode) :: [(⟨1, 1, 3⟩ : ChildNode)])
          = some b
        ∧ b ∈ ((⟨0, 1, 2⟩ : ChildNode) :: [(⟨1, 1, 3⟩ : ChildNode)])
        ∧ (∀ c ∈ ((⟨0, 1, 2⟩ : ChildNode) :: [(⟨1, 1, 3⟩ : ChildNode)]),
            uct_score 0 1 c < uct_score 0 1 b
            ∨ (uct_score 0 1 c = uct_score 0 1 b ∧ c.num_options ≤ b.num_options))
        ∧ ∃ i : Nat,
            ((⟨0, 1, 2⟩ : ChildNode) :: [(⟨1, 1, 3⟩ : ChildNode)])[i]? = some b
            ∧ ∀ j : Nat, j < i → ∀ c : ChildNode,
                ((⟨0, 1, 2⟩ : ChildNode) :: [(⟨1, 1, 3⟩ : ChildNode)])[j]? = some c →
                uct_score 0 1 c < uct_score 0 1 b
                ∨ (uct_score 0 1 c = uct_score 0 1 b
                    ∧ c.num_options < b.num_options) := by
  refine ⟨by simp, ?_, ?_⟩
  · intro c hc
    rcases List.mem_cons.mp hc with rfl | hc
    · decide
    · rcases List.mem_cons.mp hc with rfl | hc
      · decide
      · cases hc
  · refine get_best_child_selects_max 0 1 _ (by simp) ?_
    intro c hc
    rcases List.mem_cons.mp hc with rfl | hc
    · decide
    · rcases List.mem_cons.mp hc with rfl | hc
      · decide
      · cases hc

theorem backpropagate_core (reward : ℝ) :
    ∀ (chain : List Nat) (stats : NodeHeap), chain.Nodup →
      (∀ i ∈ chain, backpropagate reward stats chain i
          = ⟨(stats i).num_visits + 1, max reward (stats i).reward⟩)
      ∧ (∀ i, i ∉ chain → backpropagate reward stats chain i = stats i) := by
  intro chain
  induction chain with
  | nil =>
    intro stats _
    exact ⟨fun i hi => absurd hi (List.not_mem_nil i), fun i _ => rfl⟩
  | cons n rest ih =>
    intro stats hnd
    have hnr : n ∉ rest := (List.nodup_cons.mp hnd).1
    have hndr : rest.Nodup := (List.nodup_cons.mp hnd).2
    obtain ⟨ih1, ih2⟩ := ih
      (fun i => if i = n then
        ⟨(stats n).num_visits + 1, max reward (stats n).reward⟩
      else stats i) hndr
    constructor
    · intro i hi
      rcases List.mem_cons.mp hi with rfl | hi
      · show backpropagate reward _ rest i = _
        rw [ih2 i hnr]
        simp
      · have hin : i ≠ n := fun h => hnr (h ▸ hi)
        show backpropagate reward _ rest i = _
        rw [ih1 i hi]
        simp [hin]
    · intro i hi
      have hin : i ≠ n := fun h => hi (h ▸ List.mem_cons_self n rest)
      have hir : i ∉ rest := fun h => hi (List.mem_cons_of_mem n h)
      show backpropagate reward _ rest i = _
      rw [ih2 i hir]
      simp [hin]

/-- C7: `backpropagate` along the parent chain of a node (the node and its
ancestors up to the root, pairwise distinct in a tree) increments
`num_visits` by exactly 1 and replaces `reward` by `max(reward, received)`
for every node on the chain, changes no other node, and afterwards every node
on the chain stores a reward `≥` the received reward. -/
theorem backpropagate_max_lift (parent : Nat → Option Nat) (stats : NodeHeap)
    (n : Nat) (chain : List Nat) (reward : ℝ)
    (_hchain : ParentChain parent n chain) (hnd : chain.Nodup) :
    (∀ i ∈ chain, backpropagate reward stats chain i
        = ⟨(stats i).num_visits + 1, max reward (stats i).reward⟩)
    ∧ (∀ i, i ∉ chain → backpropagate reward stats chain i = stats i)
    ∧ (∀ i ∈ chain, reward ≤ (backpropagate reward stats chain i).reward) := by
  obtain ⟨h1, h2⟩ := backpropagate_core reward chain stats hnd
  refine ⟨h1, h2, ?_⟩
  intro i hi
  rw [h1 i hi]
  exact le_max_left _ _

/-- Witness for the C7 theorem on the concrete two-node heap. -/
theorem backpropagate_max_lift_witness :
    ParentChain devParent 0 [0, 1] ∧ ([0, 1] : List Nat).Nodup
    ∧ ((∀ i ∈ ([0, 1] : List Nat), backpropagate 2 devStats [0, 1] i
          = ⟨(devStats i).num_visits + 1, max 2 (devStats i).reward⟩)
      ∧ (∀ i, i ∉ ([0, 1] : List Nat) → backpropagate 2 devStats [0, 1] i = devStats i)
      ∧ (∀ i ∈ ([0, 1] : List Nat), (2 : ℝ) ≤ (backpropagate 2 devStats [0, 1] i).reward)) := by
  have hchain : ParentChain devParent 0 [0, 1] :=
    ParentChain.cons rfl (ParentChain.last rfl)
  exact ⟨hchain, by decide,
    backpropagate_max_lift devParent devStats 0 [0, 1] 2 hchain (by decide)⟩

/-- C9: determinism as a two-run statement over the embedded solver with an
explicit RNG state: two runs of `generate_crossword` on equal
`(random_seed, layout, word list, max_num_words, iteration_limit)` inputs
produce identical results — in particular identical committed-word sequences
and identical per-step statistics — because every non-deterministic decision
(word-list subsampling, rollout action selection) consumes the single
explicitly threaded RNG state seeded once from `random_seed`. -/
theorem solver_two_runs_identical (seed1 seed2 : Nat)
    (layout1 layout2 : Layout) (raw1 raw2 : List RawWord)
    (m1 m2 it1 it2 : Nat)
    (hseed : seed1 = seed2) (hlay : layout1 = layout2) (hraw : raw1 = raw2)
    (hm : m1 = m2) (hit : it1 = it2) :
    generate_crossword seed1 layout1 raw1 m1 it1
      = generate_crossword seed2 layout2 raw2 m2 it2 := by
  subst hseed
  subst hlay
  subst hraw
  subst hm
  subst hit
  rfl

/-- Witness for the C9 theorem at concrete solver inputs. -/
theorem solver_two_runs_identical_witness :
    generate_crossword 123 blank3 [some ['A', 'A', 'A']] 100 1
      = generate_crossword 123 blank3 [some ['A', 'A', 'A']] 100 1 :=
  solver_two_runs_identical 123 123 blank3 blank3
    [some ['A', 'A', 'A']] [some ['A', 'A', 'A']] 100 100 1 1
    rfl rfl rfl rfl rfl

/-- C8 (counterexample): with `word_lengths = [3]`, the raw word `"AB-C"`
(raw length 4) has stripped form `"ABC"` of length 3, which the claim says is
retained; but normalization retains nothing, because the length filter is
applied to the raw string before uppercasing/stripping.  The variant
transcribed from the spec's step order (`normalize_words_spec_order`) would
retain it. -/
theorem raw_length_filter_drops_strippable_word :
    (toUpperStripped ['A', 'B', '-', 'C']).length ∈ [3]
    ∧ normalize_words [3] [some ['A', 'B', '-', 'C']] = []
    ∧ preprocess_words [3] [some ['A', 'B', '-', 'C']] 100 ⟨0⟩ = ([], ⟨0⟩)
    ∧ normalize_words_spec_order [3] [some ['A', 'B', '-', 'C']]
        = [['A', 'B', 'C']] := by
  decide

/-- C8 (amended): normalization retains exactly the stripped-uppercased forms
of those raw items that are strings whose *raw* length is in `word_lengths`
(the length filter runs before stripping, so the retained stripped forms can
even have lengths outside `word_lengths`; they are excluded later by
`separate_words_by_length`).  A uniform subsample without replacement is
applied afterwards by `preprocess_words`. -/
theorem normalize_words_mem_iff (word_lengths : List Nat) (raw : List RawWord)
    (w : List Char) :
    w ∈ normalize_words word_lengths raw
      ↔ ∃ s : List Char, some s ∈ raw ∧ s.length ∈ word_lengths
          ∧ toUpperStripped s = w := by
  unfold normalize_words
  rw [mem_sortWords, List.mem_dedup, List.mem_filterMap]
  constructor
  · rintro ⟨x, hx, hw⟩
    cases x with
    | none => cases hw
    | some s =>
      dsimp only at hw
      by_cases hlen : s.length ∈ word_lengths
      · rw [if_pos hlen] at hw
        exact ⟨s, hx, hlen, Option.some.inj hw⟩
      · rw [if_neg hlen] at hw
        cases hw
  · rintro ⟨s, hs, hlen, rfl⟩
    refine ⟨some s, hs, ?_⟩
    dsimp only
    rw [if_pos hlen]

/-- C1 (code bug): on `layoutBlocked`, entry 0 has 3 cells but only 1
dependency (cells with no crossing entry contribute no placeholder), so the
dependencies list is *not* parallel to the coordinates list; consequently
`take_action` with word `ABC` propagates `action[0] = 'A'` into the crossing
entry at the shared cell `(0, 2)` — the cell that holds `'C'` in the filled
entry — leaving the two entries inconsistent on their shared cell. -/
theorem dependencies_not_parallel_on_blocked_grid :
    ((get_dependencies
        ((extract_entries_from_layout layoutBlocked).map Prod.snd)).getD 0 []).length
      = 1
    ∧ (((extract_entries_from_layout layoutBlocked).map Prod.snd).getD 0 []).length
      = 3
    ∧ ValidAction stateBlocked ['A', 'B', 'C']
    ∧ ((stateBlocked.entries.getD 0 dummyEntry).coordinates.getD 2 (9, 9))
      = ((stateBlocked.entries.getD 1 dummyEntry).coordinates.getD 0 (8, 8))
    ∧ ((take_action stateBlocked ['A', 'B', 'C']).entries.getD 0 dummyEntry).pattern
      = ['A', 'B', 'C']
    ∧ ((take_action stateBlocked ['A', 'B', 'C']).entries.getD 1 dummyEntry).pattern
      = ['A', '_', '_'] := by
  decide

/-- C2 (counterexample): one valid `take_action` from the initial state on a
blank 3×3 grid with words `AAA`, `BBB`.  After filling the first across entry
with `AAA`, entry 4 (the second across entry, which does not cross the filled
one) still lists `AAA` among its `possible_words` although `AAA` is in
`words_already_used` — so its candidate set is not disjoint from the used
words, contradicting the claimed set equality. -/
theorem stale_candidates_after_one_action :
    ValidAction state2 ['A', 'A', 'A']
    ∧ words_already_used (take_action state2 ['A', 'A', 'A']) = [['A', 'A', 'A']]
    ∧ ((take_action state2 ['A', 'A', 'A']).entries.getD 4 dummyEntry).pattern
      = ['_', '_', '_']
    ∧ ((take_action state2 ['A', 'A', 'A']).entries.getD 4 dummyEntry).possible_words
      = [['A', 'A', 'A'], ['B', 'B', 'B']] := by
  decide

/-- C3 (counterexample): on a blank 3×3 grid with `dict6`, the four valid
actions `ABC`, `ADG`, `BEH`, `CFI` (each the forced next entry's word) leave
entry 4 with all three letters fixed through crossings
(`num_letters_fixed = length = 3`) while `word_fixed` is still `false`,
because `take_action` sets `word_fixed = False` on affected entries
unconditionally. -/
theorem fully_crossed_entry_not_word_fixed :
    ValidAction state6 ['A', 'B', 'C']
    ∧ ValidAction (take_action state6 ['A', 'B', 'C']) ['A', 'D', 'G']
    ∧ ValidAction (take_action (take_action state6 ['A', 'B', 'C']) ['A', 'D', 'G'])
        ['B', 'E', 'H']
    ∧ ValidAction (take_action (take_action (take_action state6 ['A', 'B', 'C'])
        ['A', 'D', 'G']) ['B', 'E', 'H']) ['C', 'F', 'I']
    ∧ (((take_action (take_action (take_action (take_action state6 ['A', 'B', 'C'])
        ['A', 'D', 'G']) ['B', 'E', 'H']) ['C', 'F', 'I']).entries.getD 4
          dummyEntry).num_letters_fixed = 3
      ∧ ((take_action (take_action (take_action (take_action state6 ['A', 'B', 'C'])
        ['A', 'D', 'G']) ['B', 'E', 'H']) ['C', 'F', 'I']).entries.getD 4
          dummyEntry).length = 3
      ∧ ((take_action (take_action (take_action (take_action state6 ['A', 'B', 'C'])
        ['A', 'D', 'G']) ['B', 'E', 'H']) ['C', 'F', 'I']).entries.getD 4
          dummyEntry).word_fixed = false) := by
  decide

end Crossword
